import Mathlib

/-!
Verification development for the PAT browser telemetry core
(collector, privacy filter, encrypted event store, intent analyzer).

The C++ sources under browser/src are shallowly embedded:
pure functions become Lean functions, object state becomes explicit
record passing, `double` fields become `ℚ`, `base::Time` is modelled as
rational milliseconds since the Unix epoch, and `base::TimeDelta` as
rational milliseconds.  External capabilities (the SHA-1 digest, the
model runtime) are passed as explicit function parameters; the external
JSON reader is modelled by a small executable recursive-descent reader,
and the external JSON writer by an executable renderer for the flat
record lists this program serializes (JSON wire encoding is an
out-of-scope collaborator per the specification: only a serializable
record shape is assumed).
-/

/-! ### Character and string utilities -/

/-- Left brace character, written numerically. -/
def lbrace : Char := Char.ofNat 123

/-- Right brace character, written numerically. -/
def rbrace : Char := Char.ofNat 125

/-- ASCII lower-casing of a single character, as `base::ToLowerASCII` does
for each character: only `A`–`Z` are mapped. -/
def toLowerChar (c : Char) : Char :=
  if 'A' ≤ c ∧ c ≤ 'Z' then Char.ofNat (c.toNat + 32) else c

/-- Numeric value of an ASCII digit character. -/
def digitVal (c : Char) : Nat := c.toNat - 48

/-- ASCII digit character for a digit value below ten. -/
def digitChar10 (d : Nat) : Char := Char.ofNat (48 + d)

/-- Decimal digit characters of `n`, most significant first,
producing `[]` for `0` (fuel-driven so that the kernel can evaluate it). -/
def natCharsAux : Nat → Nat → List Char
  | 0, _ => []
  | fuel+1, n => if n = 0 then [] else natCharsAux fuel (n / 10) ++ [digitChar10 (n % 10)]

/-- Decimal rendering of a natural number. -/
def natChars (n : Nat) : List Char :=
  if n = 0 then ['0'] else natCharsAux (n + 1) n

/-- Decimal rendering of an integer (minus sign for negative values). -/
def intChars (i : Int) : List Char :=
  if i < 0 then '-' :: natChars i.natAbs else natChars i.natAbs

/-- Greedy decimal-digit scanner: accumulates digits into `acc` and stops at
the first non-digit character, returning the value and the rest. -/
def parseNatAux : List Char → Nat → Nat × List Char
  | [], acc => (acc, [])
  | c :: t, acc => if c.isDigit then parseNatAux t (acc * 10 + digitVal c) else (acc, c :: t)

/-- Reads a non-empty run of decimal digits; fails if the input does not
start with a digit. -/
def parseNat (s : List Char) : Option (Nat × List Char) :=
  match s with
  | [] => none
  | c :: _ => if c.isDigit then some (parseNatAux s 0) else none

/-- String-body escaping used by the serialization model: quote and
backslash are backslash-escaped, all other characters pass through. -/
def escChars : List Char → List Char
  | [] => []
  | c :: t => if c = '"' || c = '\\' then '\\' :: c :: escChars t else c :: escChars t

/-- Reads a string body up to the closing quote, undoing `escChars`
escapes; fails on unterminated input. -/
def parseStrBody : List Char → Option (List Char × List Char)
  | [] => none
  | c :: t =>
    if c = '"' then some ([], t)
    else if c = '\\' then
      match t with
      | [] => none
      | d :: t2 =>
        match parseStrBody t2 with
        | some (l, r) => some (d :: l, r)
        | none => none
    else
      match parseStrBody t with
      | some (l, r) => some (c :: l, r)
      | none => none

/-- Substring test on character lists, mirroring `std::string::find(pat)
!= npos`: true iff `pat` occurs contiguously in the scanned list. -/
def hasSub (pat : List Char) : List Char → Bool
  | [] => pat.isEmpty
  | c :: t => pat.isPrefixOf (c :: t) || hasSub pat t

/-! ### JSON value model

Model of the external `base::Value` / JSON layer (an out-of-scope
collaborator of the store).  Integers and doubles are distinct value
kinds, as in `base::Value`; doubles are modelled as rationals.  A
dictionary is an association list; the program only ever writes
dictionaries with distinct keys, and lookup takes the first match. -/

inductive JValue where
  | jInt (n : Int)
  | jNum (q : ℚ)
  | jStr (s : String)
  | jList (items : List JValue)
  | jDict (entries : List (String × JValue))

/-- After the integer part of a number: an optional `/`-separated
denominator marks a non-integral (double) value. -/
def numTail (i : Int) (rest : List Char) : Option (JValue × List Char) :=
  match rest with
  | c :: t2 =>
    if c = '/' then
      match parseNat t2 with
      | some (d, r2) => some (JValue.jNum (mkRat i d), r2)
      | none => none
    else some (JValue.jInt i, rest)
  | [] => some (JValue.jInt i, rest)

/-- Reads a number: optional minus sign, digit run, optional denominator. -/
def parseNumber (s : List Char) : Option (JValue × List Char) :=
  match s with
  | '-' :: t =>
    match parseNat t with
    | some (n, rest) => numTail (-(n : Int)) rest
    | none => none
  | c :: _ =>
    if c.isDigit then
      match parseNat s with
      | some (n, rest) => numTail (n : Int) rest
      | none => none
    else none
  | [] => none

/-- Mode tag for the single fuelled JSON reading function. -/
inductive PMode where
  | val
  | items
  | entries

/-- Result of one fuelled JSON reading step. -/
inductive PRes where
  | v (x : JValue)
  | vs (l : List JValue)
  | kvs (l : List (String × JValue))

/-- Recursive-descent JSON reader (model of `base::JSONReader`), written
as a single fuelled function so it is structurally recursive and
evaluable by the kernel.  `PMode.val` reads one value, `PMode.items`
reads list elements up to `]`, `PMode.entries` reads dictionary entries
up to the closing brace. -/
def parseCore : Nat → PMode → List Char → Option (PRes × List Char)
  | 0, _, _ => none
  | fuel+1, PMode.val, s =>
    match s with
    | [] => none
    | c :: t =>
      if c = '[' then
        match parseCore fuel PMode.items t with
        | some (PRes.vs l, r) => some (PRes.v (JValue.jList l), r)
        | _ => none
      else if c = lbrace then
        match parseCore fuel PMode.entries t with
        | some (PRes.kvs l, r) => some (PRes.v (JValue.jDict l), r)
        | _ => none
      else if c = '"' then
        match parseStrBody t with
        | some (l, r) => some (PRes.v (JValue.jStr (String.mk l)), r)
        | none => none
      else
        match parseNumber s with
        | some (x, r) => some (PRes.v x, r)
        | none => none
  | fuel+1, PMode.items, s =>
    match s with
    | [] => none
    | c :: t =>
      if c = ']' then some (PRes.vs [], t)
      else
        match parseCore fuel PMode.val s with
        | some (PRes.v x, r) =>
          (match r with
           | ',' :: t2 =>
             match parseCore fuel PMode.items t2 with
             | some (PRes.vs l, r2) => some (PRes.vs (x :: l), r2)
             | _ => none
           | ']' :: t2 => some (PRes.vs [x], t2)
           | _ => none)
        | _ => none
  | fuel+1, PMode.entries, s =>
    match s with
    | [] => none
    | c :: t =>
      if c = rbrace then some (PRes.kvs [], t)
      else if c = '"' then
        match parseStrBody t with
        | some (k, r) =>
          (match r with
           | ':' :: t2 =>
             match parseCore fuel PMode.val t2 with
             | some (PRes.v x, r2) =>
               (match r2 with
                | c3 :: t3 =>
                  if c3 = ',' then
                    match parseCore fuel PMode.entries t3 with
                    | some (PRes.kvs l, r4) => some (PRes.kvs ((String.mk k, x) :: l), r4)
                    | _ => none
                  else if c3 = rbrace then some (PRes.kvs [(String.mk k, x)], t3)
                  else none
                | [] => none)
             | _ => none
           | _ => none)
        | none => none
      else none

/-- Whole-input JSON read: the document must parse as one value with no
trailing characters, as `base::JSONReader::Read` requires. -/
def jsonRead (s : String) : Option JValue :=
  match parseCore (s.data.length + 2) PMode.val s.data with
  | some (PRes.v x, []) => some x
  | _ => none

/-! ### JSON rendering for the flat record lists the program writes -/

/-- Renders one scalar JSON value (non-scalar constructors never occur in
the scalar positions this program serializes). -/
def writeScalar : JValue → List Char
  | JValue.jInt n => intChars n
  | JValue.jNum q => intChars q.num ++ '/' :: natChars q.den
  | JValue.jStr s => '"' :: (escChars s.data ++ ['"'])
  | JValue.jList _ => []
  | JValue.jDict _ => []

/-- Renders dictionary entries with scalar values, comma-separated. -/
def writeEntries : List (String × JValue) → List Char
  | [] => []
  | [(k, v)] => '"' :: (escChars k.data ++ '"' :: ':' :: writeScalar v)
  | (k, v) :: rest => '"' :: (escChars k.data ++ '"' :: ':' :: writeScalar v) ++ ',' :: writeEntries rest

/-- Renders one dictionary of scalars. -/
def writeDict (entries : List (String × JValue)) : List Char :=
  lbrace :: (writeEntries entries ++ [rbrace])

/-- Renders one top-level list element: a flat dictionary or a scalar. -/
def writeItem : JValue → List Char
  | JValue.jDict d => writeDict d
  | v => writeScalar v

/-- Renders comma-separated list elements. -/
def writeItemsL : List JValue → List Char
  | [] => []
  | [v] => writeItem v
  | v :: rest => writeItem v ++ ',' :: writeItemsL rest

/-- Renders a whole document: a list of flat records, as the store's
export path writes. -/
def writeDoc (items : List JValue) : String :=
  String.mk ('[' :: (writeItemsL items ++ [']']))

/-! ### Round-trip lemmas for the serialization model -/

/-- The scanned tail does not start with a digit. -/
def notDigitHead : List Char → Prop
  | [] => True
  | c :: _ => c.isDigit = false

/-- The tail following a rendered scalar cannot extend a number:
its head is neither a digit nor the denominator separator. -/
def delimOk : List Char → Prop
  | [] => True
  | c :: _ => c.isDigit = false ∧ c ≠ '/'

/-- Accumulating decimal value of a digit run. -/
def foldDig (acc : Nat) (ds : List Char) : Nat :=
  ds.foldl (fun a c => a * 10 + digitVal c) acc

theorem digitVal_digitChar10 : ∀ d : Nat, d < 10 → digitVal (digitChar10 d) = d := by decide

theorem isDigit_digitChar10 : ∀ d : Nat, d < 10 → (digitChar10 d).isDigit = true := by decide

theorem natCharsAux_digits :
    ∀ fuel n c, c ∈ natCharsAux fuel n → c.isDigit = true := by
  intro fuel
  induction fuel with
  | zero => intro n c h; simp [natCharsAux] at h
  | succ f ih =>
    intro n c h
    by_cases hn : n = 0
    · simp [natCharsAux, hn] at h
    · simp only [natCharsAux, if_neg hn, List.mem_append, List.mem_singleton] at h
      rcases h with h | h
      · exact ih _ _ h
      · subst h; exact isDigit_digitChar10 _ (Nat.mod_lt _ (by omega))

theorem natCharsAux_foldDig :
    ∀ fuel n, n < fuel →
      ∀ acc, foldDig acc (natCharsAux fuel n) = acc * 10 ^ (natCharsAux fuel n).length + n := by
  intro fuel
  induction fuel with
  | zero => intro n h; omega
  | succ f ih =>
    intro n h acc
    by_cases hn : n = 0
    · simp [natCharsAux, hn, foldDig]
    · have hdiv : n / 10 < f := by
        have h1 : n / 10 < n := Nat.div_lt_self (by omega) (by omega)
        omega
      simp only [natCharsAux, if_neg hn]
      rw [foldDig, List.foldl_append]
      have hfold := ih (n / 10) hdiv acc
      rw [foldDig] at hfold
      simp only [List.foldl_cons, List.foldl_nil, hfold]
      rw [digitVal_digitChar10 (n % 10) (Nat.mod_lt _ (by omega))]
      rw [List.length_append, List.length_singleton]
      have hp : acc * 10 ^ ((natCharsAux f (n / 10)).length + 1) =
          acc * 10 ^ (natCharsAux f (n / 10)).length * 10 := by
        rw [pow_succ]; ring
      rw [hp]
      omega

theorem natChars_digits : ∀ n c, c ∈ natChars n → c.isDigit = true := by
  intro n c h
  by_cases hn : n = 0
  · subst hn; simp [natChars] at h; subst h; decide
  · simp only [natChars, if_neg hn] at h
    exact natCharsAux_digits _ _ _ h

theorem natChars_foldDig (n : Nat) : foldDig 0 (natChars n) = n := by
  by_cases hn : n = 0
  · subst hn; decide
  · simp only [natChars, if_neg hn]
    rw [natCharsAux_foldDig (n + 1) n (by omega) 0]
    simp

theorem natChars_ne_nil (n : Nat) : natChars n ≠ [] := by
  by_cases hn : n = 0
  · subst hn; decide
  · simp only [natChars, if_neg hn]
    cases hfc : natCharsAux (n + 1) n with
    | nil =>
      exfalso
      have := natCharsAux_foldDig (n + 1) n (by omega) 0
      rw [hfc] at this
      simp [foldDig] at this
      omega
    | cons a l => simp

theorem natChars_head (n : Nat) :
    ∃ c t, natChars n = c :: t ∧ c.isDigit = true := by
  cases h : natChars n with
  | nil => exact absurd h (natChars_ne_nil n)
  | cons c t =>
    refine ⟨c, t, rfl, ?_⟩
    exact natChars_digits n c (by rw [h]; exact List.mem_cons_self c t)

theorem parseNatAux_run :
    ∀ ds rest acc, (∀ c ∈ ds, c.isDigit = true) → notDigitHead rest →
      parseNatAux (ds ++ rest) acc = (foldDig acc ds, rest) := by
  intro ds
  induction ds with
  | nil =>
    intro rest acc _ hrest
    cases rest with
    | nil => simp [parseNatAux, foldDig]
    | cons c t =>
      simp only [notDigitHead] at hrest
      simp [parseNatAux, hrest, foldDig]
  | cons c t ih =>
    intro rest acc hds hrest
    have hc : c.isDigit = true := hds c (List.mem_cons_self c t)
    simp only [List.cons_append, parseNatAux, hc, if_true, List.append_eq]
    rw [ih rest _ (fun d hd => hds d (List.mem_cons_of_mem c hd)) hrest]
    simp [foldDig]

theorem parseNat_natChars (n : Nat) (rest : List Char) (h : notDigitHead rest) :
    parseNat (natChars n ++ rest) = some (n, rest) := by
  obtain ⟨c, t, hct, hc⟩ := natChars_head n
  rw [hct]
  simp only [List.cons_append, parseNat, hc, if_true]
  have := parseNatAux_run (c :: t) rest 0 ?_ h
  · rw [List.cons_append] at this
    rw [this]
    have hv : foldDig 0 (c :: t) = n := by rw [← hct]; exact natChars_foldDig n
    rw [hv]
  · intro d hd
    exact natChars_digits n d (by rw [hct]; exact hd)

theorem parseStrBody_quote (rest : List Char) :
    parseStrBody ('"' :: rest) = some ([], rest) := by
  rw [parseStrBody.eq_def]; simp

theorem parseStrBody_backslash (c : Char) (t : List Char) :
    parseStrBody ('\\' :: c :: t) =
      match parseStrBody t with
      | some (l, r) => some (c :: l, r)
      | none => none := by
  rw [parseStrBody.eq_def]; simp

theorem parseStrBody_plain (c : Char) (t : List Char) (h1 : c ≠ '"') (h2 : c ≠ '\\') :
    parseStrBody (c :: t) =
      match parseStrBody t with
      | some (l, r) => some (c :: l, r)
      | none => none := by
  rw [parseStrBody.eq_def]
  simp [h1, h2]

theorem parseStrBody_escChars :
    ∀ l rest, parseStrBody (escChars l ++ '"' :: rest) = some (l, rest) := by
  intro l
  induction l with
  | nil => intro rest; rw [escChars, List.nil_append, parseStrBody_quote]
  | cons c t ih =>
    intro rest
    by_cases hcq : c = '"'
    · subst hcq
      have he : escChars ('"' :: t) = '\\' :: '"' :: escChars t := by simp [escChars]
      rw [he, List.cons_append, List.cons_append, parseStrBody_backslash, ih rest]
    · by_cases hcb : c = '\\'
      · subst hcb
        have he : escChars ('\\' :: t) = '\\' :: '\\' :: escChars t := by simp [escChars]
        rw [he, List.cons_append, List.cons_append, parseStrBody_backslash, ih rest]
      · have he : escChars (c :: t) = c :: escChars t := by simp [escChars, hcq, hcb]
        rw [he, List.cons_append, parseStrBody_plain c _ hcq hcb, ih rest]

theorem delimOk_notDigit {r : List Char} (h : delimOk r) : notDigitHead r := by
  cases r with
  | nil => trivial
  | cons c t => exact h.1

theorem digit_ne (c : Char) (h : c.isDigit = true) :
    c ≠ '[' ∧ c ≠ lbrace ∧ c ≠ '"' ∧ c ≠ '-' ∧ c ≠ ']' ∧ c ≠ rbrace ∧ c ≠ ',' ∧
      c ≠ ':' ∧ c ≠ '/' := by
  refine ⟨?_, ?_, ?_, ?_, ?_, ?_, ?_, ?_, ?_⟩ <;>
    (intro he; subst he; exact absurd h (by decide))

theorem intChars_head (i : Int) :
    ∃ c t, intChars i = c :: t ∧ (c = '-' ∨ c.isDigit = true) := by
  by_cases hi : i < 0
  · exact ⟨'-', natChars i.natAbs, by simp [intChars, hi], Or.inl rfl⟩
  · obtain ⟨c, t, hct, hc⟩ := natChars_head i.natAbs
    exact ⟨c, t, by simp [intChars, hi, hct], Or.inr hc⟩

theorem numTail_delim (i : Int) (rest : List Char) (h : delimOk rest) :
    numTail i rest = some (JValue.jInt i, rest) := by
  cases rest with
  | nil => rw [numTail.eq_def]
  | cons c t =>
    rw [numTail.eq_def]
    have hcs : c ≠ '/' := h.2
    simp [hcs]

theorem numTail_slash (i : Int) (t2 : List Char) :
    numTail i ('/' :: t2) =
      match parseNat t2 with
      | some (d, r2) => some (JValue.jNum (mkRat i d), r2)
      | none => none := by
  rw [numTail.eq_def]
  simp

theorem parseNumber_intChars_tail (i : Int) (tail : List Char) (h : notDigitHead tail) :
    parseNumber (intChars i ++ tail) = numTail i tail := by
  by_cases hi : i < 0
  · have hic : intChars i = '-' :: natChars i.natAbs := by simp [intChars, hi]
    have hn : (-(i.natAbs : Int)) = i := by omega
    rw [hic, List.cons_append, parseNumber.eq_def]
    simp only [parseNat_natChars i.natAbs tail h, hn]
  · obtain ⟨c, t, hct, hc⟩ := natChars_head i.natAbs
    have hic : intChars i = natChars i.natAbs := by simp [intChars, hi]
    have hcm : c ≠ '-' := (digit_ne c hc).2.2.2.1
    have hn : ((i.natAbs : Int)) = i := by omega
    rw [hic, hct, List.cons_append, parseNumber.eq_def]
    simp only [hcm, hc, if_true, if_false]
    rw [← List.cons_append, ← hct, parseNat_natChars i.natAbs tail h]
    simp [hn]

theorem parseNumber_jIntChars (i : Int) (rest : List Char) (h : delimOk rest) :
    parseNumber (intChars i ++ rest) = some (JValue.jInt i, rest) := by
  rw [parseNumber_intChars_tail i rest (delimOk_notDigit h), numTail_delim i rest h]

theorem parseNumber_jNumChars (q : ℚ) (rest : List Char) (h : delimOk rest) :
    parseNumber ((intChars q.num ++ '/' :: natChars q.den) ++ rest) =
      some (JValue.jNum q, rest) := by
  rw [List.append_assoc, List.cons_append]
  have hnd : notDigitHead ('/' :: (natChars q.den ++ rest)) := by
    simp [notDigitHead]
  rw [parseNumber_intChars_tail q.num _ hnd, numTail_slash]
  rw [parseNat_natChars q.den rest (delimOk_notDigit h)]
  simp [Rat.mkRat_self]

/-- Scalar JSON values (the only value kinds this program stores in
record fields). -/
def scalarOk : JValue → Prop
  | JValue.jInt _ => True
  | JValue.jNum _ => True
  | JValue.jStr _ => True
  | _ => False

/-- All values of a record dictionary are scalars. -/
def entriesOk (entries : List (String × JValue)) : Prop := ∀ p ∈ entries, scalarOk p.2

/-- A top-level list element as written by the program: a flat record
dictionary or a scalar. -/
def itemOk : JValue → Prop
  | JValue.jDict d => entriesOk d
  | v => scalarOk v

theorem parseCore_val_num (f : Nat) (c : Char) (t : List Char)
    (h : c = '-' ∨ c.isDigit = true) :
    parseCore (f + 1) PMode.val (c :: t) =
      match parseNumber (c :: t) with
      | some (x, r) => some (PRes.v x, r)
      | none => none := by
  have h1 : c ≠ '[' := by
    rcases h with h | h
    · subst h; decide
    · exact (digit_ne c h).1
  have h2 : c ≠ lbrace := by
    rcases h with h | h
    · subst h; decide
    · exact (digit_ne c h).2.1
  have h3 : c ≠ '"' := by
    rcases h with h | h
    · subst h; decide
    · exact (digit_ne c h).2.2.1
  rw [parseCore.eq_def]
  simp [h1, h2, h3]

theorem parseCore_scalar (v : JValue) (hv : scalarOk v) (fuel : Nat) (hf : 0 < fuel)
    (rest : List Char) (hr : delimOk rest) :
    parseCore fuel PMode.val (writeScalar v ++ rest) = some (PRes.v v, rest) := by
  obtain ⟨f, rfl⟩ : ∃ f, fuel = f + 1 := ⟨fuel - 1, by omega⟩
  cases v with
  | jInt n =>
    obtain ⟨c, t, hct, hc⟩ := intChars_head n
    rw [writeScalar, hct, List.cons_append, parseCore_val_num f c _ hc]
    rw [← List.cons_append, ← hct, parseNumber_jIntChars n rest hr]
  | jNum q =>
    obtain ⟨c, t, hct, hc⟩ := intChars_head q.num
    have hin : writeScalar (JValue.jNum q) ++ rest =
        c :: (t ++ ('/' :: natChars q.den ++ rest)) := by
      rw [writeScalar]
      rw [show intChars q.num ++ '/' :: natChars q.den = intChars q.num ++ ('/' :: natChars q.den) from rfl]
      rw [hct]
      simp [List.cons_append, List.append_assoc]
    rw [hin, parseCore_val_num f c _ hc]
    have hin2 : c :: (t ++ ('/' :: natChars q.den ++ rest)) =
        (intChars q.num ++ '/' :: natChars q.den) ++ rest := by
      rw [hct]
      simp [List.cons_append, List.append_assoc]
    rw [hin2, parseNumber_jNumChars q rest hr]
  | jStr s =>
    have hq1 : ('"' : Char) ≠ '[' := by decide
    have hq2 : ('"' : Char) ≠ lbrace := by decide
    have hin : writeScalar (JValue.jStr s) ++ rest =
        '"' :: (escChars s.data ++ '"' :: rest) := by
      rw [writeScalar]; simp [List.cons_append, List.append_assoc]
    rw [hin, parseCore.eq_def]
    simp only [hq1, hq2, if_false, if_pos rfl, if_true]
    rw [parseStrBody_escChars s.data rest]
  | jList l => exact absurd hv (by simp [scalarOk])
  | jDict d => exact absurd hv (by simp [scalarOk])

theorem parseCore_entries_rt (entries : List (String × JValue)) (he : entriesOk entries) :
    ∀ fuel, entries.length < fuel → ∀ rest,
      parseCore fuel PMode.entries (writeEntries entries ++ rbrace :: rest) =
        some (PRes.kvs entries, rest) := by
  induction entries with
  | nil =>
    intro fuel hf rest
    obtain ⟨f, rfl⟩ : ∃ f, fuel = f + 1 := ⟨fuel - 1, by omega⟩
    rw [writeEntries, List.nil_append, parseCore.eq_def]
    simp
  | cons p rest' ih =>
    obtain ⟨k, v⟩ := p
    intro fuel hf rest
    obtain ⟨f, rfl⟩ : ∃ f, fuel = f + 1 := ⟨fuel - 1, by omega⟩
    have hv : scalarOk v := he (k, v) (List.mem_cons_self _ _)
    have hflen : rest'.length + 1 < f + 1 := by simpa [List.length_cons] using hf
    have hq1 : ('"' : Char) ≠ rbrace := by decide
    cases rest' with
    | nil =>
      have hin : writeEntries [(k, v)] ++ rbrace :: rest =
          '"' :: (escChars k.data ++ '"' :: (':' :: (writeScalar v ++ rbrace :: rest))) := by
        rw [writeEntries]
        simp [List.cons_append, List.append_assoc]
      rw [hin, parseCore.eq_def]
      simp only [hq1, if_false, if_pos rfl, if_true]
      rw [parseStrBody_escChars k.data]
      have hsc := parseCore_scalar v hv f (by omega) (rbrace :: rest) (by exact ⟨by decide, by decide⟩)
      simp only [hsc]
      have hrb1 : rbrace ≠ ',' := by decide
      simp [hrb1, String.mk]
    | cons p2 rest'' =>
      have hin : writeEntries ((k, v) :: p2 :: rest'') ++ rbrace :: rest =
          '"' :: (escChars k.data ++ '"' :: (':' :: (writeScalar v ++
            ',' :: (writeEntries (p2 :: rest'') ++ rbrace :: rest)))) := by
        rw [writeEntries.eq_def]
        simp [List.cons_append, List.append_assoc]
      rw [hin, parseCore.eq_def]
      simp only [hq1, if_false, if_pos rfl, if_true]
      rw [parseStrBody_escChars k.data]
      have hsc := parseCore_scalar v hv f (by omega)
        (',' :: (writeEntries (p2 :: rest'') ++ rbrace :: rest)) (by exact ⟨by decide, by decide⟩)
      simp only [hsc]
      have hih := ih (fun p hp => he p (List.mem_cons_of_mem _ hp)) f (by
        simp only [List.length_cons] at hf ⊢
        omega) rest
      simp [hih, String.mk]

theorem parseCore_dictVal (d : List (String × JValue)) (hd : entriesOk d)
    (fuel : Nat) (hf : d.length + 2 ≤ fuel) (rest : List Char) :
    parseCore fuel PMode.val (writeDict d ++ rest) = some (PRes.v (JValue.jDict d), rest) := by
  obtain ⟨f, rfl⟩ : ∃ f, fuel = f + 1 := ⟨fuel - 1, by omega⟩
  have hb1 : lbrace ≠ '[' := by decide
  have hin : writeDict d ++ rest = lbrace :: (writeEntries d ++ rbrace :: rest) := by
    rw [writeDict]
    simp [List.cons_append, List.append_assoc]
  rw [hin, parseCore.eq_def]
  simp only [hb1, if_false, if_pos rfl, if_true]
  rw [parseCore_entries_rt d hd f (by omega) rest]

/-- Reader fuel needed for one written item. -/
def itemNeed : JValue → Nat
  | JValue.jDict d => d.length + 2
  | _ => 1

/-- Reader fuel needed for a written item list. -/
def itemsNeed : List JValue → Nat
  | [] => 1
  | it :: rest => 1 + max (itemNeed it) (itemsNeed rest)

theorem parseCore_item (it : JValue) (hi : itemOk it) (fuel : Nat)
    (hf : itemNeed it ≤ fuel) (rest : List Char) (hr : delimOk rest) :
    parseCore fuel PMode.val (writeItem it ++ rest) = some (PRes.v it, rest) := by
  cases it with
  | jDict d =>
    exact parseCore_dictVal d hi fuel (by simpa [itemNeed] using hf) rest
  | jInt n =>
    exact parseCore_scalar (JValue.jInt n) (by simp [scalarOk]) fuel
      (by simp [itemNeed] at hf; omega) rest hr
  | jNum q =>
    exact parseCore_scalar (JValue.jNum q) (by simp [scalarOk]) fuel
      (by simp [itemNeed] at hf; omega) rest hr
  | jStr s =>
    exact parseCore_scalar (JValue.jStr s) (by simp [scalarOk]) fuel
      (by simp [itemNeed] at hf; omega) rest hr
  | jList l => exact absurd hi (by simp [itemOk, scalarOk])

theorem writeItem_head (it : JValue) (hi : itemOk it) :
    ∃ c t, writeItem it = c :: t ∧ c ≠ ']' := by
  cases it with
  | jInt n =>
    obtain ⟨c, t, hct, hc⟩ := intChars_head n
    refine ⟨c, t, by simpa [writeItem, writeScalar] using hct, ?_⟩
    rcases hc with hc | hc
    · subst hc; decide
    · exact (digit_ne c hc).2.2.2.2.1
  | jNum q =>
    obtain ⟨c, t, hct, hc⟩ := intChars_head q.num
    refine ⟨c, t ++ '/' :: natChars q.den, ?_, ?_⟩
    · simp [writeItem, writeScalar, hct]
    · rcases hc with hc | hc
      · subst hc; decide
      · exact (digit_ne c hc).2.2.2.2.1
  | jStr s => exact ⟨'"', escChars s.data ++ ['"'], rfl, by decide⟩
  | jDict d => exact ⟨lbrace, writeEntries d ++ [rbrace], rfl, by decide⟩
  | jList l => exact absurd hi (by simp [itemOk, scalarOk])

theorem parseCore_itemsL (items : List JValue) (hall : ∀ it ∈ items, itemOk it) :
    ∀ fuel, itemsNeed items ≤ fuel → ∀ rest,
      parseCore fuel PMode.items (writeItemsL items ++ ']' :: rest) =
        some (PRes.vs items, rest) := by
  induction items with
  | nil =>
    intro fuel hf rest
    obtain ⟨f, rfl⟩ : ∃ f, fuel = f + 1 := ⟨fuel - 1, by simp [itemsNeed] at hf; omega⟩
    rw [writeItemsL, List.nil_append, parseCore.eq_def]
    simp
  | cons it rest' ih =>
    intro fuel hf rest
    have hfmax : 1 + max (itemNeed it) (itemsNeed rest') ≤ fuel := by
      simpa [itemsNeed] using hf
    obtain ⟨f, rfl⟩ : ∃ f, fuel = f + 1 := ⟨fuel - 1, by omega⟩
    have hit : itemOk it := hall it (List.mem_cons_self _ _)
    obtain ⟨c, t, hct, hcne⟩ := writeItem_head it hit
    have hfit : itemNeed it ≤ f := by omega
    cases rest' with
    | nil =>
      have hin : writeItemsL [it] ++ ']' :: rest = c :: (t ++ ']' :: rest) := by
        rw [writeItemsL, hct]
        simp [List.cons_append]
      rw [hin, parseCore.eq_def]
      simp only [hcne, if_false]
      have hone := parseCore_item it hit f hfit (']' :: rest) (by exact ⟨by decide, by decide⟩)
      rw [hct, List.cons_append] at hone
      simp [hone]
    | cons it2 rest'' =>
      have hin : writeItemsL (it :: it2 :: rest'') ++ ']' :: rest =
          c :: (t ++ (',' :: (writeItemsL (it2 :: rest'') ++ ']' :: rest))) := by
        rw [writeItemsL.eq_def]
        simp only []
        rw [hct]
        simp [List.cons_append, List.append_assoc]
      rw [hin, parseCore.eq_def]
      simp only [hcne, if_false]
      have hone := parseCore_item it hit f hfit
        (',' :: (writeItemsL (it2 :: rest'') ++ ']' :: rest)) (by exact ⟨by decide, by decide⟩)
      rw [hct, List.cons_append] at hone
      simp only [hone]
      have hih := ih (fun x hx => hall x (List.mem_cons_of_mem _ hx)) f (by omega) rest
      simp [hih]

theorem writeScalar_pos (v : JValue) (hv : scalarOk v) : 1 ≤ (writeScalar v).length := by
  cases v with
  | jInt n =>
    obtain ⟨c, t, hct, _⟩ := intChars_head n
    simp [writeScalar, hct]
  | jNum q =>
    obtain ⟨c, t, hct, _⟩ := intChars_head q.num
    simp [writeScalar, hct]
  | jStr s => simp [writeScalar]
  | jList l => exact absurd hv (by simp [scalarOk])
  | jDict d => exact absurd hv (by simp [scalarOk])

theorem writeEntries_len (entries : List (String × JValue)) :
    entries.length ≤ (writeEntries entries).length := by
  induction entries with
  | nil => simp [writeEntries]
  | cons p rest ih =>
    obtain ⟨k, v⟩ := p
    cases rest with
    | nil => simp [writeEntries]
    | cons p2 rest' =>
      rw [writeEntries.eq_def]
      simp only [List.length_cons]
      simp only [List.length_cons] at ih
      simp [List.length_append]
      omega

theorem itemNeed_le (it : JValue) (hi : itemOk it) : itemNeed it ≤ (writeItem it).length := by
  cases it with
  | jDict d =>
    have := writeEntries_len d
    simp [itemNeed, writeItem, writeDict, List.length_append]
    omega
  | jInt n => simpa [itemNeed, writeItem] using writeScalar_pos (JValue.jInt n) (by simp [scalarOk])
  | jNum q => simpa [itemNeed, writeItem] using writeScalar_pos (JValue.jNum q) (by simp [scalarOk])
  | jStr s => simpa [itemNeed, writeItem] using writeScalar_pos (JValue.jStr s) (by simp [scalarOk])
  | jList l => exact absurd hi (by simp [itemOk, scalarOk])

theorem writeItem_pos (it : JValue) (hi : itemOk it) : 1 ≤ (writeItem it).length := by
  obtain ⟨c, t, hct, _⟩ := writeItem_head it hi
  simp [hct]

theorem itemsNeed_le (items : List JValue) (hall : ∀ it ∈ items, itemOk it) :
    itemsNeed items ≤ (writeItemsL items).length + 1 := by
  induction items with
  | nil => simp [itemsNeed, writeItemsL]
  | cons it rest ih =>
    have hit : itemOk it := hall it (List.mem_cons_self _ _)
    have h1 := itemNeed_le it hit
    have h2 := writeItem_pos it hit
    cases rest with
    | nil =>
      simp only [itemsNeed, writeItemsL]
      have : itemsNeed [] = 1 := rfl
      omega
    | cons it2 rest' =>
      have hih := ih (fun x hx => hall x (List.mem_cons_of_mem _ hx))
      have hexp : itemsNeed (it :: it2 :: rest') =
          1 + max (itemNeed it) (itemsNeed (it2 :: rest')) := rfl
      have hlen : (writeItemsL (it :: it2 :: rest')).length =
          (writeItem it).length + 1 + (writeItemsL (it2 :: rest')).length := by
        rw [writeItemsL.eq_def]
        simp [List.length_append]
        omega
      rw [hexp, hlen]
      omega

theorem jsonRead_writeDoc (items : List JValue) (hall : ∀ it ∈ items, itemOk it) :
    jsonRead (writeDoc items) = some (JValue.jList items) := by
  have hdata : (writeDoc items).data = '[' :: (writeItemsL items ++ [']']) := rfl
  rw [jsonRead, hdata]
  have hlen : ('[' :: (writeItemsL items ++ [']'])).length =
      (writeItemsL items).length + 2 := by
    simp [List.length_append]
  rw [hlen]
  rw [show (writeItemsL items).length + 2 + 2 = ((writeItemsL items).length + 3) + 1 from by omega]
  rw [parseCore.eq_def]
  have hread := parseCore_itemsL items hall ((writeItemsL items).length + 3)
    (by have := itemsNeed_le items hall; omega) []
  simp [hread]

/-! ### Event model (browser/src/collector/event_types.h) -/

/-- Kinds of browsing events collected by the data collector. -/
inductive BrowsingEventType where
  | PAGE_LOAD
  | PAGE_UNLOAD
  | SCROLL
  | CLICK
  | FORM_SUBMIT
  | SEARCH_QUERY
deriving DecidableEq

/-- One browsing event.  `base::Time` is modelled as rational milliseconds
since the Unix epoch and `base::TimeDelta` as rational milliseconds;
`double` fields are rationals.  A default-constructed C++ `BrowsingEvent`
leaves `type` uninitialized; it is modelled as the first enumerator (the
value zero-initialization would give), and no claim depends on it. -/
structure BrowsingEvent where
  type : BrowsingEventType := BrowsingEventType.PAGE_LOAD
  url_hash : String := ""
  timestamp : ℚ := 0
  duration : ℚ := 0
  scroll_depth : ℚ := 0
  element_type : String := ""
  search_query : String := ""
  referrer_hash : String := ""
deriving DecidableEq

/-- The `static_cast<int>` codes of the event kinds (declaration order). -/
def typeCode : BrowsingEventType → Int
  | BrowsingEventType.PAGE_LOAD => 0
  | BrowsingEventType.PAGE_UNLOAD => 1
  | BrowsingEventType.SCROLL => 2
  | BrowsingEventType.CLICK => 3
  | BrowsingEventType.FORM_SUBMIT => 4
  | BrowsingEventType.SEARCH_QUERY => 5

/-- Inverse cast `static_cast<BrowsingEventType>`.  A C++ cast of an
out-of-range code is unspecified; it is modelled as the first enumerator
(the program only ever round-trips codes it wrote itself). -/
def typeOfCode (n : Int) : BrowsingEventType :=
  if n = 0 then BrowsingEventType.PAGE_LOAD
  else if n = 1 then BrowsingEventType.PAGE_UNLOAD
  else if n = 2 then BrowsingEventType.SCROLL
  else if n = 3 then BrowsingEventType.CLICK
  else if n = 4 then BrowsingEventType.FORM_SUBMIT
  else if n = 5 then BrowsingEventType.SEARCH_QUERY
  else BrowsingEventType.PAGE_LOAD

/-- Truncating conversion of a rational to an integer (toward zero), as
`base::TimeDelta::InMilliseconds` truncates. -/
def truncQ (q : ℚ) : Int := q.num / (q.den : Int)

/-! ### Encrypted store (browser/src/storage/encrypted_store.cc) -/

/-- State of an `EncryptedStore`: the in-memory event cache, the
encryption key, and the storage file path. -/
structure EncryptedStore where
  events : List BrowsingEvent := []
  encryption_key : String := ""
  storage_path : String := "pat_browsing_data.enc"
deriving DecidableEq

/-- Maximum number of cached events (`kMaxCachedEvents`). -/
def kMaxCachedEvents : Nat := 10000

/-- `EncryptedStore::StoreEvent` on the `events_` vector: push the event
at the back, then erase the front entry if the size exceeds the limit. -/
def StoreEvent (events : List BrowsingEvent) (e : BrowsingEvent) : List BrowsingEvent :=
  let pushed := events ++ [e]
  if kMaxCachedEvents < pushed.length then pushed.drop 1 else pushed

/-- `EncryptedStore::ClearAll`. -/
def clearAll (st : EncryptedStore) : EncryptedStore := { st with events := [] }

/-- The development placeholder marker the store prepends when sealing. -/
def sealedTag : String := "[ENCRYPTED]"

/-- `EncryptedStore::Encrypt`: with no key the plaintext is returned
unchanged (development fallback); otherwise the placeholder marker is
prepended. -/
def encrypt (key : String) (plaintext : String) : String :=
  if key = "" then plaintext
  else String.mk (sealedTag.data ++ plaintext.data)

/-- `EncryptedStore::Decrypt`: with no key the ciphertext is returned
unchanged; otherwise the placeholder marker is stripped when present and
the input is returned unchanged when it is not. -/
def decrypt (key : String) (ciphertext : String) : String :=
  if key = "" then ciphertext
  else if sealedTag.data.isPrefixOf ciphertext.data then
    String.mk (ciphertext.data.drop sealedTag.data.length)
  else ciphertext

/-- Dictionary lookup (`base::Value::Dict::Find*`).  The program writes
dictionaries with distinct keys, so first-match lookup is adequate. -/
def findKey (d : List (String × JValue)) (k : String) : Option JValue :=
  match d.find? (fun p => p.1 == k) with
  | some p => some p.2
  | none => none

/-- `FindInt`: present only when the stored value is an integer. -/
def findInt (d : List (String × JValue)) (k : String) : Option Int :=
  match findKey d k with
  | some (JValue.jInt n) => some n
  | _ => none

/-- `FindDouble`: doubles and integers both convert. -/
def findNum (d : List (String × JValue)) (k : String) : Option ℚ :=
  match findKey d k with
  | some (JValue.jInt n) => some (n : ℚ)
  | some (JValue.jNum q) => some q
  | _ => none

/-- `FindString`. -/
def findStr (d : List (String × JValue)) (k : String) : Option String :=
  match findKey d k with
  | some (JValue.jStr s) => some s
  | _ => none

/-- The record `ExportEncrypted` writes for one event: type code,
URL hash, timestamp (fractional milliseconds), duration in (integer)
milliseconds, scroll depth, element type, search query. -/
def eventToJsonEntries (e : BrowsingEvent) : List (String × JValue) :=
  [("type", JValue.jInt (typeCode e.type)),
   ("url_hash", JValue.jStr e.url_hash),
   ("timestamp", JValue.jNum e.timestamp),
   ("duration_ms", JValue.jInt (truncQ e.duration)),
   ("scroll_depth", JValue.jNum e.scroll_depth),
   ("element_type", JValue.jStr e.element_type),
   ("search_query", JValue.jStr e.search_query)]

/-- `EncryptedStore::ExportEncrypted`: serialize all events to a JSON
list and encrypt it. -/
def exportEncrypted (st : EncryptedStore) : String :=
  encrypt st.encryption_key
    (writeDoc (st.events.map (fun e => JValue.jDict (eventToJsonEntries e))))

/-- One imported event: a default-constructed event whose fields are
overwritten by whichever dictionary entries are present, exactly as
the loop of `ImportEncrypted` does. -/
def eventFromDict (d : List (String × JValue)) : BrowsingEvent :=
  let e0 : BrowsingEvent := {}
  let e1 := match findInt d "type" with
    | some n => { e0 with type := typeOfCode n }
    | none => e0
  let e2 := match findStr d "url_hash" with
    | some s => { e1 with url_hash := s }
    | none => e1
  let e3 := match findNum d "timestamp" with
    | some q => { e2 with timestamp := q }
    | none => e2
  let e4 := match findNum d "duration_ms" with
    | some q => { e3 with duration := q }
    | none => e3
  let e5 := match findNum d "scroll_depth" with
    | some q => { e4 with scroll_depth := q }
    | none => e4
  let e6 := match findStr d "element_type" with
    | some s => { e5 with element_type := s }
    | none => e5
  match findStr d "search_query" with
  | some s => { e6 with search_query := s }
  | none => e6

/-- A list item of the import loop: non-dictionary items are skipped
(`continue`), dictionary items become events. -/
def eventOfItem : JValue → Option BrowsingEvent
  | JValue.jDict d => some (eventFromDict d)
  | _ => none

/-- `EncryptedStore::ImportEncrypted`: decrypt, fail on an empty result,
parse, fail unless the parse result is a list, then append one event per
dictionary item to the existing cache.  Returns the updated store and
the success flag. -/
def importEncrypted (st : EncryptedStore) (data : String) : EncryptedStore × Bool :=
  let json := decrypt st.encryption_key data
  if json = "" then (st, false)
  else
    match jsonRead json with
    | some (JValue.jList items) =>
      ({ st with events := st.events ++ items.filterMap eventOfItem }, true)
    | _ => (st, false)

/-- Events recovered from a blob by a successful import. -/
def recoveredEvents (key : String) (data : String) : List BrowsingEvent :=
  match jsonRead (decrypt key data) with
  | some (JValue.jList items) => items.filterMap eventOfItem
  | _ => []

/-- The event fields claim C7 compares: kind, url hash, scroll depth,
timestamp, element type, search query. -/
def eventProj (e : BrowsingEvent) : BrowsingEventType × String × ℚ × ℚ × String × String :=
  (e.type, e.url_hash, e.scroll_depth, e.timestamp, e.element_type, e.search_query)

/-! ### Store lemmas -/

theorem isPrefixOf_append_self : ∀ l t : List Char, l.isPrefixOf (l ++ t) = true := by
  intro l t
  induction l with
  | nil => simp [List.isPrefixOf]
  | cons c cs ih => simp [List.isPrefixOf, ih]

theorem writeDoc_ne_empty (items : List JValue) : writeDoc items ≠ "" := by
  intro h
  have := congrArg String.data h
  simp [writeDoc] at this

theorem typeOfCode_typeCode (t : BrowsingEventType) : typeOfCode (typeCode t) = t := by
  cases t <;> rfl

theorem eventFromDict_rt (e : BrowsingEvent) :
    eventFromDict (eventToJsonEntries e) =
      { e with duration := ((truncQ e.duration : Int) : ℚ), referrer_hash := "" } := by
  obtain ⟨ty, u, ts, du, sc, el, sq, rh⟩ := e
  cases ty <;> rfl

theorem entriesOk_event (e : BrowsingEvent) : itemOk (JValue.jDict (eventToJsonEntries e)) := by
  intro p hp
  simp [eventToJsonEntries] at hp
  rcases hp with h | h | h | h | h | h | h <;> (rw [h]; simp [scalarOk])

theorem import_false_state (st : EncryptedStore) (blob : String)
    (h : (importEncrypted st blob).2 = false) : (importEncrypted st blob).1 = st := by
  rw [importEncrypted] at h ⊢
  by_cases he : decrypt st.encryption_key blob = ""
  · simp [he]
  · simp only [he, if_false] at h ⊢
    rcases hj : jsonRead (decrypt st.encryption_key blob) with _ | x
    · simp [hj]
    · cases x <;> simp [hj] at h ⊢

theorem import_true_events (st : EncryptedStore) (blob : String)
    (h : (importEncrypted st blob).2 = true) :
    (importEncrypted st blob).1.events = st.events ++ recoveredEvents st.encryption_key blob ∧
      (importEncrypted st blob).1.encryption_key = st.encryption_key := by
  rw [importEncrypted] at h ⊢
  rw [recoveredEvents]
  by_cases he : decrypt st.encryption_key blob = ""
  · simp [he] at h
  · simp only [he, if_false] at h ⊢
    rcases hj : jsonRead (decrypt st.encryption_key blob) with _ | x
    · simp [hj] at h
    · cases x <;> simp [hj] at h ⊢

/-- Sample event used in concrete witnesses. -/
def evA : BrowsingEvent := { type := BrowsingEventType.PAGE_LOAD, url_hash := "aa", timestamp := 1000 }

/-- Sample event exercising string escaping and fractional fields. -/
def evB : BrowsingEvent :=
  { type := BrowsingEventType.SEARCH_QUERY, url_hash := "h\"h", timestamp := mkRat 5001 2,
    duration := 1500, scroll_depth := mkRat 3 4, element_type := "a",
    search_query := "cats \\ dogs" }

/-- Claim C3 counterexample: as stated the claim quantifies over every
store state, but a store already holding 10,002 events (reachable via
`ImportEncrypted`, which never evicts) still holds 10,002 events after
`StoreEvent`, exceeding the capacity of 10,000 — `StoreEvent` evicts at
most one entry per call. -/
theorem c3_store_capacity_counterexample :
    kMaxCachedEvents < (StoreEvent (List.replicate 10002 evA) evA).length := by
  have hlen : (List.replicate 10002 evA ++ [evA]).length = 10003 := by
    simp only [List.length_append, List.length_replicate, List.length_singleton]
  simp only [StoreEvent]
  rw [if_pos (by rw [hlen]; norm_num [kMaxCachedEvents])]
  simp only [List.length_drop, hlen]
  norm_num [kMaxCachedEvents]

/-- Claim C3 (amended): if the store holds at most 10,000 events before
the call — true of every store populated through `StoreEvent` alone —
then after `StoreEvent` returns the count is at most 10,000; and from a
store at exactly capacity, storing `N` further events drops exactly the
`N` oldest entries in strict FIFO order while all newly stored events
are retained. -/
theorem c3_store_capacity :
    (∀ s e, s.length ≤ kMaxCachedEvents → (StoreEvent s e).length ≤ kMaxCachedEvents) ∧
    (∀ s (es : List BrowsingEvent), s.length = kMaxCachedEvents →
      List.foldl StoreEvent s es = (s ++ es).drop es.length) := by
  constructor
  · intro s e h
    simp only [StoreEvent]
    split
    · simp only [List.length_drop, List.length_append, List.length_singleton]
      omega
    · rename_i hc
      simp only [List.length_append, List.length_singleton] at hc ⊢
      omega
  · intro s es
    induction es generalizing s with
    | nil => intro h; simp
    | cons e es ih =>
      intro h
      have hs1 : 1 ≤ s.length := by
        rw [h]; norm_num [kMaxCachedEvents]
      have hcond : kMaxCachedEvents < (s ++ [e]).length := by
        simp only [List.length_append, List.length_singleton, h]
        omega
      have hstep : StoreEvent s e = (s ++ [e]).drop 1 := by
        simp only [StoreEvent]
        rw [if_pos hcond]
      have hlen1 : ((s ++ [e]).drop 1).length = kMaxCachedEvents := by
        simp only [List.length_drop, List.length_append, List.length_singleton, h]
        omega
      rw [List.foldl_cons, hstep, ih _ hlen1, List.length_cons]
      calc ((s ++ [e]).drop 1 ++ es).drop es.length
          = ((s.drop 1 ++ [e]) ++ es).drop es.length := by
            rw [List.drop_append_of_le_length hs1]
        _ = (s.drop 1 ++ (e :: es)).drop es.length := by
            rw [List.append_assoc, List.singleton_append]
        _ = ((s ++ e :: es).drop 1).drop es.length := by
            rw [List.drop_append_of_le_length hs1]
        _ = (s ++ e :: es).drop (es.length + 1) := by
            rw [List.drop_drop, Nat.add_comm]

/-- Claim C3 witness: the amended theorem applied at a store of exactly
10,000 events and two further stores. -/
theorem c3_store_capacity_witness :
    (StoreEvent (List.replicate 10000 evA) evA).length ≤ kMaxCachedEvents ∧
    List.foldl StoreEvent (List.replicate 10000 evA) [evA, evB] =
      ((List.replicate 10000 evA) ++ [evA, evB]).drop 2 := by
  constructor
  · exact c3_store_capacity.1 (List.replicate 10000 evA) evA
      (by rw [List.length_replicate]; exact le_rfl)
  · have h := c3_store_capacity.2 (List.replicate 10000 evA) [evA, evB]
      (by rw [List.length_replicate]; simp only [kMaxCachedEvents])
    have h2 : ([evA, evB] : List BrowsingEvent).length = 2 := rfl
    rw [h2] at h
    exact h

/-- Claim C4: for every store state and every blob, a failing
`ImportEncrypted` leaves the stored sequence exactly as it was, and a
successful one appends the recovered events after the existing events
without replacing or reordering them. -/
theorem c4_import_append (st : EncryptedStore) (blob : String) :
    ((importEncrypted st blob).2 = false → (importEncrypted st blob).1 = st) ∧
    ((importEncrypted st blob).2 = true →
      (importEncrypted st blob).1.events =
        st.events ++ recoveredEvents st.encryption_key blob ∧
      (importEncrypted st blob).1.encryption_key = st.encryption_key) := by
  exact ⟨import_false_state st blob, import_true_events st blob⟩

/-- Store used in concrete import witnesses. -/
def stW : EncryptedStore := { events := [evA], encryption_key := "0123456789abcdef" }

/-- Claim C4 witness: an unparsable blob fails and leaves the store
untouched; an empty-list blob succeeds and appends nothing. -/
theorem c4_import_append_witness :
    ((importEncrypted stW "x").2 = false ∧ (importEncrypted stW "x").1 = stW) ∧
    ((importEncrypted stW (writeDoc [])).2 = true ∧
      (importEncrypted stW (writeDoc [])).1.events =
        stW.events ++ recoveredEvents stW.encryption_key (writeDoc [])) := by
  refine ⟨⟨by decide, (c4_import_append stW "x").1 (by decide)⟩,
    ⟨by decide, ?_⟩⟩
  exact ((c4_import_append stW (writeDoc [])).2 (by decide)).1

/-- A store filled to capacity, used to exhibit the import overshoot. -/
def bigStore : EncryptedStore :=
  { events := List.replicate kMaxCachedEvents evA, encryption_key := "0123456789abcdef" }

/-- A valid blob holding one event, produced by the export path itself. -/
def blob9 : String :=
  exportEncrypted { events := [evA], encryption_key := "0123456789abcdef" }

/-- Claim C9: `ImportEncrypted` appends every recovered event without any
eviction, so importing a valid one-event blob into a store already at
capacity leaves 10,001 stored events — beyond the 10,000-event bound —
while `StoreEvent` (which removes at most one entry per call, never
shrinking the sequence) is the only operation enforcing that bound. -/
theorem c9_import_exceeds_capacity :
    (importEncrypted bigStore blob9).2 = true ∧
    (importEncrypted bigStore blob9).1.events.length = kMaxCachedEvents + 1 ∧
    kMaxCachedEvents < (importEncrypted bigStore blob9).1.events.length ∧
    (∀ s e, s.length ≤ (StoreEvent s e).length) := by
  have hok : (importEncrypted bigStore blob9).2 = true := by decide
  have hev := (import_true_events bigStore blob9 hok).1
  have hrec : (recoveredEvents bigStore.encryption_key blob9).length = 1 := by decide
  have hlen : (importEncrypted bigStore blob9).1.events.length = kMaxCachedEvents + 1 := by
    rw [hev, List.length_append]
    rw [show bigStore.events = List.replicate kMaxCachedEvents evA from rfl]
    rw [List.length_replicate, hrec]
  refine ⟨hok, hlen, by rw [hlen]; omega, ?_⟩
  intro s e
  simp only [StoreEvent]
  split
  · simp only [List.length_drop, List.length_append, List.length_singleton]
    omega
  · simp only [List.length_append, List.length_singleton]
    omega

/-- Claim C10 counterexample: the claim asserts that for every blob
beginning with the literal `[ENCRYPTED]` marker, `Decrypt` returns the
remainder — but with no key set, `Decrypt` returns the blob unchanged,
marker included. -/
theorem c10_decrypt_counterexample :
    decrypt "" (String.mk (sealedTag.data ++ "x".data)) =
      String.mk (sealedTag.data ++ "x".data) ∧
    String.mk (sealedTag.data ++ "x".data) ≠ "x" := by
  exact ⟨by decide, by decide⟩

/-- Claim C10 (amended): when a key is set, `Decrypt` strips the literal
`[ENCRYPTED]` marker when present and returns the blob unchanged
otherwise; when no key is set, `Decrypt` returns every blob unchanged
and `Encrypt` returns the serialized plaintext unchanged.  Consequently
`ImportEncrypted` accepts a plaintext (never-sealed) JSON list blob
and brings in its events successfully. -/
theorem c10_decrypt_behavior :
    (∀ key rest, key ≠ "" →
      decrypt key (String.mk (sealedTag.data ++ rest)) = String.mk rest) ∧
    (∀ key ct, key ≠ "" → sealedTag.data.isPrefixOf ct.data = false → decrypt key ct = ct) ∧
    (∀ ct, decrypt "" ct = ct) ∧
    (∀ s, encrypt "" s = s) ∧
    ((importEncrypted stW (writeDoc [JValue.jDict [("type", JValue.jInt 3)]])).2 = true ∧
      (importEncrypted stW (writeDoc [JValue.jDict [("type", JValue.jInt 3)]])).1.events =
        stW.events ++ [eventFromDict [("type", JValue.jInt 3)]]) := by
  refine ⟨?_, ?_, ?_, ?_, by decide, by decide⟩
  · intro key rest hk
    rw [decrypt, if_neg hk]
    rw [if_pos (isPrefixOf_append_self sealedTag.data rest)]
    rw [List.drop_left]
  · intro key ct hk hpf
    rw [decrypt, if_neg hk, hpf]
    simp
  · intro ct
    rw [decrypt, if_pos rfl]
  · intro s
    rw [encrypt, if_pos rfl]

/-- Claim C10 witness: the amended theorem applied at concrete keys and
blobs. -/
theorem c10_decrypt_behavior_witness :
    decrypt "0123456789abcdef" (String.mk (sealedTag.data ++ "x".data)) =
      String.mk "x".data ∧
    decrypt "0123456789abcdef" "yy" = "yy" ∧
    decrypt "" "zz" = "zz" ∧
    encrypt "" "ww" = "ww" := by
  refine ⟨c10_decrypt_behavior.1 "0123456789abcdef" "x".data (by decide),
    c10_decrypt_behavior.2.1 "0123456789abcdef" "yy" (by decide) (by decide),
    c10_decrypt_behavior.2.2.1 "zz",
    c10_decrypt_behavior.2.2.2.1 "ww"⟩

/-- Claim C7: exporting a non-empty store with the cipher key set,
then importing the blob into a cleared destination store (key set), succeeds
and reproduces the event sequence — in particular an equal multiset —
with kind, url_hash, scroll_depth, timestamp, element_type and
search_query equal at stored precision. -/
theorem c7_export_import_roundtrip (src dst : EncryptedStore)
    (hsk : src.encryption_key ≠ "") (hdk : dst.encryption_key ≠ "")
    (hne : src.events ≠ []) :
    (importEncrypted (clearAll dst) (exportEncrypted src)).2 = true ∧
    (importEncrypted (clearAll dst) (exportEncrypted src)).1.events.map eventProj =
      src.events.map eventProj := by
  set items := src.events.map (fun e => JValue.jDict (eventToJsonEntries e)) with hitems
  have hexp : exportEncrypted src = String.mk (sealedTag.data ++ (writeDoc items).data) := by
    rw [exportEncrypted, encrypt, if_neg hsk]
  have hck : (clearAll dst).encryption_key = dst.encryption_key := rfl
  have hdec : decrypt (clearAll dst).encryption_key (exportEncrypted src) = writeDoc items := by
    rw [hexp, hck, decrypt, if_neg hdk]
    rw [if_pos (isPrefixOf_append_self sealedTag.data (writeDoc items).data)]
    rw [show (String.mk (sealedTag.data ++ (writeDoc items).data)).data =
        sealedTag.data ++ (writeDoc items).data from rfl]
    rw [List.drop_left]
  have hall : ∀ it ∈ items, itemOk it := by
    intro it hit
    rw [hitems] at hit
    obtain ⟨e, _, rfl⟩ := List.mem_map.1 hit
    exact entriesOk_event e
  have hjson : jsonRead (writeDoc items) = some (JValue.jList items) :=
    jsonRead_writeDoc items hall
  have himp : importEncrypted (clearAll dst) (exportEncrypted src) =
      ({ clearAll dst with events := [] ++ items.filterMap eventOfItem }, true) := by
    rw [importEncrypted]
    rw [hdec]
    rw [if_neg (writeDoc_ne_empty items), hjson]
    simp [clearAll]
  have hfm : items.filterMap eventOfItem =
      src.events.map (fun e => eventFromDict (eventToJsonEntries e)) := by
    rw [hitems, List.filterMap_map]
    have hcomp : (eventOfItem ∘ fun e => JValue.jDict (eventToJsonEntries e)) =
        fun e => some (eventFromDict (eventToJsonEntries e)) := rfl
    rw [hcomp]
    rw [show (fun e => some (eventFromDict (eventToJsonEntries e))) =
        some ∘ (fun e => eventFromDict (eventToJsonEntries e)) from rfl]
    rw [List.filterMap_eq_map]
  constructor
  · rw [himp]
  · rw [himp]
    show ([] ++ items.filterMap eventOfItem).map eventProj = src.events.map eventProj
    rw [List.nil_append, hfm, List.map_map]
    apply List.map_congr_left
    intro e _
    show eventProj (eventFromDict (eventToJsonEntries e)) = eventProj e
    rw [eventFromDict_rt]
    rfl

/-- Source and destination stores for the round-trip witness. -/
def srcW : EncryptedStore := { events := [evA, evB], encryption_key := "0123456789abcdef" }

/-- Destination store (different key, pre-existing content that gets
cleared) for the round-trip witness. -/
def dstW : EncryptedStore := { events := [evB], encryption_key := "fedcba9876543210" }

/-- Claim C7 witness: the round trip applied to a concrete two-event
store whose events exercise string escaping and fractional timestamps. -/
theorem c7_export_import_roundtrip_witness :
    (importEncrypted (clearAll dstW) (exportEncrypted srcW)).2 = true ∧
    (importEncrypted (clearAll dstW) (exportEncrypted srcW)).1.events.map eventProj =
      srcW.events.map eventProj :=
  c7_export_import_roundtrip srcW dstW (by decide) (by decide) (by decide)

/-! ### Privacy filter (browser/src/collector/privacy_filter.cc) -/

/-- Known banking domain patterns (`kBankingDomains`). -/
def kBankingDomains : List String :=
  ["bank", "chase", "wellsfargo", "bankofamerica", "citi", "capitalone",
   "usbank", "pnc", "ally", "schwab", "fidelity", "vanguard", "etrade",
   "tdameritrade", "robinhood", "coinbase", "kraken", "binance", "paypal",
   "venmo", "zelle", "stripe", "square"]

/-- Known healthcare domain patterns (`kHealthcareDomains`). -/
def kHealthcareDomains : List String :=
  ["health", "medical", "hospital", "clinic", "doctor", "patient",
   "pharmacy", "cvs", "walgreens", "medicare", "medicaid", "anthem",
   "bluecross", "aetna", "cigna", "unitedhealth", "kaiser", "webmd",
   "mayoclinic", "clevelandclinic", "zocdoc"]

/-- Known social media domain patterns (`kSocialMediaDomains`). -/
def kSocialMediaDomains : List String :=
  ["facebook", "instagram", "twitter", "x.com", "tiktok", "snapchat",
   "linkedin", "reddit", "pinterest", "tumblr", "discord", "telegram",
   "whatsapp", "messenger", "threads"]

/-- State of a `PrivacyFilter`: the user exclusion set (a `std::set` of
normalized domains, modelled as a list) and the three category flags
with their defaults. -/
structure PrivacyFilter where
  user_excluded_domains : List String := []
  exclude_banking : Bool := true
  exclude_healthcare : Bool := true
  exclude_social_media : Bool := false
deriving DecidableEq

/-- ASCII lower-casing of a whole string (`base::ToLowerASCII`). -/
def toLowerStr (s : String) : String := String.mk (s.data.map toLowerChar)

/-- `PrivacyFilter::IsBankingSite`: the lower-cased domain contains one
of the banking patterns as a substring. -/
def isBankingSite (domain : String) : Bool :=
  kBankingDomains.any (fun pat => hasSub pat.data (toLowerStr domain).data)

/-- `PrivacyFilter::IsHealthcareSite`. -/
def isHealthcareSite (domain : String) : Bool :=
  kHealthcareDomains.any (fun pat => hasSub pat.data (toLowerStr domain).data)

/-- `PrivacyFilter::IsSocialMediaSite`. -/
def isSocialMediaSite (domain : String) : Bool :=
  kSocialMediaDomains.any (fun pat => hasSub pat.data (toLowerStr domain).data)

/-- `PrivacyFilter::IsCategoryExcluded`. -/
def isCategoryExcluded (f : PrivacyFilter) (domain : String) : Bool :=
  (f.exclude_banking && isBankingSite domain) ||
  (f.exclude_healthcare && isHealthcareSite domain) ||
  (f.exclude_social_media && isSocialMediaSite domain)

/-- Tail comparison mirroring `domain.compare(domain.length() -
suffix.length(), suffix.length(), suffix) == 0`. -/
def suffixCmp (domain : List Char) (suffix : List Char) : Bool :=
  domain.drop (domain.length - suffix.length) == suffix

/-- `PrivacyFilter::IsUserExcluded`: exact set membership, then a
dot-separated-suffix scan guarded by a length check. -/
def isUserExcluded (f : PrivacyFilter) (domain : String) : Bool :=
  f.user_excluded_domains.contains domain ||
  f.user_excluded_domains.any (fun e =>
    decide (e.data.length < domain.data.length) &&
      suffixCmp domain.data ('.' :: e.data))

/-- The observations of a `GURL` this code consumes: validity, host and
full spec. -/
structure GUrl where
  valid : Bool
  host : String
  spec : String
deriving DecidableEq

/-- `PrivacyFilter::IsExcluded`: invalid URLs are excluded, then user
exclusions, then category exclusions. -/
def isExcluded (f : PrivacyFilter) (url : GUrl) : Bool :=
  if !url.valid then true
  else if isUserExcluded f url.host then true
  else if isCategoryExcluded f url.host then true
  else false

/-- `PrivacyFilter::SanitizeElementSelector`: the longest leading run of
alphabetic characters, lower-cased; `"unknown"` if there is none. -/
def sanitizeElementSelector (selector : String) : String :=
  let lead := selector.data.takeWhile Char.isAlpha
  if lead.isEmpty then "unknown" else String.mk (lead.map toLowerChar)

/-! ### The PII regular expressions of `SanitizeSearchQuery`

A small executable matcher for the pattern class the five PII regexes
live in (character classes, counted and greedy repetition, option,
word boundaries), with ECMAScript leftmost/greedy backtracking
semantics as `std::regex_replace` uses. -/

/-- Regular-expression shapes used by the PII patterns. -/
inductive RE where
  | cls (p : Char → Bool)
  | seq (a b : RE)
  | opt (a : RE)
  | repCls (p : Char → Bool) (n : Nat)
  | atLeastCls (p : Char → Bool) (n : Nat)
  | wordB

/-- Word characters for `\b` (ECMAScript: letters, digits, underscore). -/
def isWordChar (c : Char) : Bool := c.isAlphanum || c = '_'

/-- Word-ness of an optional character (none = outside the input). -/
def isWordOpt : Option Char → Bool
  | some c => isWordChar c
  | none => false

/-- A word boundary sits between a word and a non-word position. -/
def boundaryAt (prev next : Option Char) : Bool := isWordOpt prev != isWordOpt next

/-- Matches exactly `n` characters of class `p`. -/
def repHelper {α : Type} (p : Char → Bool) :
    Nat → Option Char → List Char → (Option Char → List Char → Option α) → Option α
  | 0, prev, s, k => k prev s
  | n+1, _, s, k =>
    match s with
    | [] => none
    | c :: t => if p c then repHelper p n (some c) t k else none

/-- The last character of the first `i` characters of `s`, falling back
to `prev` when `i = 0`. -/
def prevAfterTake (prev : Option Char) (s : List Char) (i : Nat) : Option Char :=
  match (s.take i).getLast? with
  | some c => some c
  | none => prev

/-- Greedy backtracking over repetition lengths: try `i` characters
first, then shorter runs, never fewer than `n`. -/
def tryFrom {α : Type} (n : Nat) (prev : Option Char) (s : List Char)
    (k : Option Char → List Char → Option α) : Nat → Option α
  | 0 => if n = 0 then k prev s else none
  | i+1 =>
    (if n ≤ i + 1 then k (prevAfterTake prev s (i + 1)) (s.drop (i + 1)) else none).orElse
      (fun _ => tryFrom n prev s k i)

/-- Continuation-passing matcher with ECMAScript preference order:
greedy repetition (longest first), greedy option (present first). -/
def matchRE {α : Type} : RE → Option Char → List Char →
    (Option Char → List Char → Option α) → Option α
  | RE.cls p, _, s, k =>
    (match s with
     | [] => none
     | c :: t => if p c then k (some c) t else none)
  | RE.seq a b, prev, s, k => matchRE a prev s (fun p2 s2 => matchRE b p2 s2 k)
  | RE.opt a, prev, s, k => (matchRE a prev s k).orElse (fun _ => k prev s)
  | RE.repCls p n, prev, s, k => repHelper p n prev s k
  | RE.atLeastCls p n, prev, s, k => tryFrom n prev s k ((s.takeWhile p).length)
  | RE.wordB, prev, s, k => if boundaryAt prev s.head? then k prev s else none

/-- Attempts a match at the current position, returning the final
context character and the unconsumed tail of the first (preferred)
successful alternative. -/
def tryMatch (re : RE) (prev : Option Char) (s : List Char) :
    Option (Option Char × List Char) :=
  matchRE re prev s (fun p2 s2 => some (p2, s2))

/-- `std::regex_replace` scan: at each position try the pattern; on a
(progressing) match emit the replacement and continue after it,
otherwise copy one character.  Fuel equals the input length. -/
def replaceScan (re : RE) (marker : List Char) : Nat → Option Char → List Char → List Char
  | 0, _, s => s
  | fuel+1, prev, s =>
    match s with
    | [] => []
    | c :: t =>
      match tryMatch re prev s with
      | some (p2, s2) =>
        if s2.length < s.length then marker ++ replaceScan re marker fuel p2 s2
        else c :: replaceScan re marker fuel (some c) t
      | none => c :: replaceScan re marker fuel (some c) t

/-- Replace every match of `re` in `s` by `marker`. -/
def replaceAllRE (re : RE) (marker : List Char) (s : List Char) : List Char :=
  replaceScan re marker s.length none s

/-- Character classes of the PII patterns. -/
def emailLocalC (c : Char) : Bool :=
  c.isAlpha || c.isDigit || c = '.' || c = '_' || c = '%' || c = '+' || c = '-'

/-- Domain-part class of the email pattern. -/
def emailDomainC (c : Char) : Bool := c.isAlpha || c.isDigit || c = '.' || c = '-'

/-- Top-level-domain class of the email pattern (the source class
`[A-Z|a-z]` literally includes a pipe character). -/
def emailTldC (c : Char) : Bool := c.isAlpha || c = '|'

/-- Phone-number separator class `[-.]`. -/
def phoneSepC (c : Char) : Bool := c = '-' || c = '.'

/-- Decimal digit class `\d`. -/
def digitC (c : Char) : Bool := c.isDigit

/-- The email pattern (all its classes are closed under letter case, so
the `icase` flag has no effect). -/
def emailRE : RE :=
  RE.seq RE.wordB (RE.seq (RE.atLeastCls emailLocalC 1)
    (RE.seq (RE.cls (fun c => c = '@')) (RE.seq (RE.atLeastCls emailDomainC 1)
      (RE.seq (RE.cls (fun c => c = '.')) (RE.seq (RE.atLeastCls emailTldC 2) RE.wordB)))))

/-- The phone-number pattern. -/
def phoneRE : RE :=
  RE.seq RE.wordB (RE.seq (RE.repCls digitC 3) (RE.seq (RE.opt (RE.cls phoneSepC))
    (RE.seq (RE.repCls digitC 3) (RE.seq (RE.opt (RE.cls phoneSepC))
      (RE.seq (RE.repCls digitC 4) RE.wordB)))))

/-- The SSN-like pattern. -/
def ssnRE : RE :=
  RE.seq RE.wordB (RE.seq (RE.repCls digitC 3) (RE.seq (RE.opt (RE.cls (fun c => c = '-')))
    (RE.seq (RE.repCls digitC 2) (RE.seq (RE.opt (RE.cls (fun c => c = '-')))
      (RE.seq (RE.repCls digitC 4) RE.wordB)))))

/-- The 16-digit card-like pattern. -/
def cardRE : RE := RE.seq RE.wordB (RE.seq (RE.repCls digitC 16) RE.wordB)

/-- The ZIP-like pattern. -/
def zipRE : RE :=
  RE.seq RE.wordB (RE.seq (RE.repCls digitC 5)
    (RE.seq (RE.opt (RE.seq (RE.cls (fun c => c = '-')) (RE.repCls digitC 4))) RE.wordB))

/-- The ordered PII pattern list (`kPiiPatterns`). -/
def kPiiPatterns : List RE := [emailRE, phoneRE, ssnRE, cardRE, zipRE]

/-- The redaction marker. -/
def redactedMarker : String := "[REDACTED]"

/-- Counts non-overlapping marker occurrences, advancing by the marker
length (ten characters) past each hit, as the counting loop does. -/
def countOccAux : Nat → List Char → Nat
  | 0, _ => 0
  | fuel+1, s =>
    if redactedMarker.data.isPrefixOf s then
      1 + countOccAux fuel (s.drop redactedMarker.data.length)
    else
      match s with
      | [] => 0
      | _ :: t => countOccAux fuel t

/-- Number of redaction markers in a character list. -/
def countOcc (s : List Char) : Nat := countOccAux s.length s

/-- `PrivacyFilter::SanitizeSearchQuery`: apply the five PII patterns in
order, each replacing all its matches with the marker; if the result
contains a marker and more than two markers in total, suppress the whole
query. -/
def sanitizeSearchQuery (query : String) : String :=
  let result := kPiiPatterns.foldl (fun acc re => replaceAllRE re redactedMarker.data acc) query.data
  if hasSub redactedMarker.data result then
    if 2 < countOcc result then "" else String.mk result
  else String.mk result

/-! ### Claim C5: exclusion characterization -/

/-- Spec-side reading: the host equals a user-excluded domain or ends
with a dot followed by one. -/
def specUserHit (f : PrivacyFilter) (host : String) : Prop :=
  ∃ d ∈ f.user_excluded_domains, host = d ∨ ∃ pre, host.data = pre ++ '.' :: d.data

/-- Spec-side reading: the keyword belongs to the list of an enabled
category. -/
def enabledKeyword (f : PrivacyFilter) (kw : String) : Prop :=
  (f.exclude_banking = true ∧ kw ∈ kBankingDomains) ∨
  (f.exclude_healthcare = true ∧ kw ∈ kHealthcareDomains) ∨
  (f.exclude_social_media = true ∧ kw ∈ kSocialMediaDomains)

/-- Spec-side reading: the host contains, case-insensitively, a keyword
of an enabled category. -/
def specCategoryHit (f : PrivacyFilter) (host : String) : Prop :=
  ∃ kw, enabledKeyword f kw ∧
    ∃ pre post, host.data.map toLowerChar = pre ++ kw.data.map toLowerChar ++ post

theorem hasSub_iff (pat : List Char) :
    ∀ s, hasSub pat s = true ↔ ∃ pre post, s = pre ++ pat ++ post := by
  intro s
  induction s with
  | nil =>
    cases pat with
    | nil => simp [hasSub]
    | cons p pt =>
      simp only [hasSub, List.isEmpty_cons]
      constructor
      · intro h; exact absurd h (by decide)
      · rintro ⟨pre, post, heq⟩
        exact absurd heq.symm (by simp)
  | cons c t ih =>
    simp only [hasSub, Bool.or_eq_true]
    constructor
    · rintro (h | h)
      · obtain ⟨post, hpost⟩ := (List.isPrefixOf_iff_prefix).1 h
        exact ⟨[], post, by simp [hpost.symm]⟩
      · obtain ⟨pre, post, heq⟩ := ih.1 h
        exact ⟨c :: pre, post, by simp [heq]⟩
    · rintro ⟨pre, post, heq⟩
      cases pre with
      | nil =>
        left
        rw [List.isPrefixOf_iff_prefix]
        exact ⟨post, by simpa using heq.symm⟩
      | cons p pre2 =>
        right
        injection heq with h1 h2
        exact ih.2 ⟨pre2, post, h2⟩

theorem suffix_clause_iff (host e : String) :
    (decide (e.data.length < host.data.length) &&
      suffixCmp host.data ('.' :: e.data)) = true ↔
      ∃ pre, host.data = pre ++ '.' :: e.data := by
  constructor
  · intro h
    rw [Bool.and_eq_true, decide_eq_true_eq] at h
    obtain ⟨hlen, hcmp⟩ := h
    rw [suffixCmp] at hcmp
    have heq : host.data.drop (host.data.length - ('.' :: e.data).length) = '.' :: e.data := by
      simpa using hcmp
    refine ⟨host.data.take (host.data.length - ('.' :: e.data).length), ?_⟩
    conv_lhs => rw [← List.take_append_drop (host.data.length - ('.' :: e.data).length) host.data]
    rw [heq]
  · rintro ⟨pre, heq⟩
    rw [Bool.and_eq_true, decide_eq_true_eq]
    have hlen : host.data.length = pre.length + (e.data.length + 1) := by
      rw [heq]; simp [List.length_append]
    refine ⟨by omega, ?_⟩
    rw [suffixCmp]
    have hidx : host.data.length - ('.' :: e.data).length = pre.length := by
      simp only [List.length_cons]
      omega
    rw [hidx, heq, List.drop_left]
    simp

theorem userHit_iff (f : PrivacyFilter) (host : String) :
    isUserExcluded f host = true ↔ specUserHit f host := by
  rw [isUserExcluded, Bool.or_eq_true]
  constructor
  · rintro (h | h)
    · exact ⟨host, List.elem_iff.1 h, Or.inl rfl⟩
    · obtain ⟨e, hmem, hclause⟩ := List.any_eq_true.1 h
      obtain ⟨pre, hdecomp⟩ := (suffix_clause_iff host e).1 hclause
      exact ⟨e, hmem, Or.inr ⟨pre, hdecomp⟩⟩
  · rintro ⟨d, hmem, hcase⟩
    rcases hcase with heq | ⟨pre, hdecomp⟩
    · subst heq
      exact Or.inl (List.elem_iff.2 hmem)
    · exact Or.inr (List.any_eq_true.2 ⟨d, hmem, (suffix_clause_iff host d).2 ⟨pre, hdecomp⟩⟩)

theorem lower_keywords :
    ∀ kw ∈ kBankingDomains ++ (kHealthcareDomains ++ kSocialMediaDomains),
      kw.data.map toLowerChar = kw.data := by decide

theorem category_clause_iff (b : Bool) (L : List String) (host : String) :
    (b && L.any (fun pat => hasSub pat.data (toLowerStr host).data)) = true ↔
      (b = true ∧ ∃ kw ∈ L, ∃ pre post, host.data.map toLowerChar = pre ++ kw.data ++ post) := by
  rw [Bool.and_eq_true, List.any_eq_true]
  constructor
  · rintro ⟨hb, kw, hkw, hsubst⟩
    exact ⟨hb, kw, hkw, (hasSub_iff kw.data (host.data.map toLowerChar)).1 hsubst⟩
  · rintro ⟨hb, kw, hkw, hdecomp⟩
    exact ⟨hb, kw, hkw, (hasSub_iff kw.data (host.data.map toLowerChar)).2 hdecomp⟩

theorem categoryHit_iff (f : PrivacyFilter) (host : String) :
    isCategoryExcluded f host = true ↔ specCategoryHit f host := by
  rw [isCategoryExcluded, isBankingSite, isHealthcareSite, isSocialMediaSite]
  simp only [Bool.or_eq_true]
  constructor
  · rintro ((h | h) | h)
    · obtain ⟨hb, kw, hkw, pre, post, hdecomp⟩ := (category_clause_iff _ _ _).1 h
      have hlow : kw.data.map toLowerChar = kw.data :=
        lower_keywords kw (by simp [hkw])
      exact ⟨kw, Or.inl ⟨hb, hkw⟩, pre, post, by rw [hlow]; exact hdecomp⟩
    · obtain ⟨hb, kw, hkw, pre, post, hdecomp⟩ := (category_clause_iff _ _ _).1 h
      have hlow : kw.data.map toLowerChar = kw.data :=
        lower_keywords kw (by simp [hkw])
      exact ⟨kw, Or.inr (Or.inl ⟨hb, hkw⟩), pre, post, by rw [hlow]; exact hdecomp⟩
    · obtain ⟨hb, kw, hkw, pre, post, hdecomp⟩ := (category_clause_iff _ _ _).1 h
      have hlow : kw.data.map toLowerChar = kw.data :=
        lower_keywords kw (by simp [hkw])
      exact ⟨kw, Or.inr (Or.inr ⟨hb, hkw⟩), pre, post, by rw [hlow]; exact hdecomp⟩
  · rintro ⟨kw, hen, pre, post, hdecomp⟩
    rcases hen with ⟨hb, hkw⟩ | ⟨hb, hkw⟩ | ⟨hb, hkw⟩
    · refine Or.inl (Or.inl ((category_clause_iff _ _ _).2 ⟨hb, kw, hkw, pre, post, ?_⟩))
      have hlow : kw.data.map toLowerChar = kw.data :=
        lower_keywords kw (by simp [hkw])
      rw [← hlow]; exact hdecomp
    · refine Or.inl (Or.inr ((category_clause_iff _ _ _).2 ⟨hb, kw, hkw, pre, post, ?_⟩))
      have hlow : kw.data.map toLowerChar = kw.data :=
        lower_keywords kw (by simp [hkw])
      rw [← hlow]; exact hdecomp
    · refine Or.inr ((category_clause_iff _ _ _).2 ⟨hb, kw, hkw, pre, post, ?_⟩)
      have hlow : kw.data.map toLowerChar = kw.data :=
        lower_keywords kw (by simp [hkw])
      rw [← hlow]; exact hdecomp

/-- Claim C5: `IsExcluded` is true exactly when the URL is invalid, or
the host equals a user-excluded domain or ends with a dot followed by
one, or the host contains (case-insensitively) a keyword of an enabled
category list; every other syntactically valid URL is not excluded. -/
theorem c5_is_excluded (f : PrivacyFilter) (u : GUrl) :
    isExcluded f u = true ↔
      (u.valid = false ∨ specUserHit f u.host ∨ specCategoryHit f u.host) := by
  rw [isExcluded]
  by_cases hv : u.valid = true
  · simp only [hv, Bool.not_true, Bool.false_eq_true, if_false]
    constructor
    · intro h
      split at h
      · rename_i h1
        exact Or.inr (Or.inl ((userHit_iff f u.host).1 h1))
      · split at h
        · rename_i h2
          exact Or.inr (Or.inr ((categoryHit_iff f u.host).1 h2))
        · exact absurd h (by simp)
    · intro h
      rcases h with h | h | h
      · exact absurd h (by simp)
      · rw [if_pos ((userHit_iff f u.host).2 h)]
      · by_cases h1 : isUserExcluded f u.host = true
        · rw [if_pos h1]
        · rw [if_neg h1, if_pos ((categoryHit_iff f u.host).2 h)]
  · have hv2 : u.valid = false := by
      cases hu : u.valid
      · rfl
      · exact absurd hu hv
    simp [hv2]

/-- Claim C6: the sanitizer suppresses a query holding three distinct
email-like substrings entirely, replaces a lone phone-like substring
with the redaction marker leaving the rest unchanged, and passes a
PII-free query through untouched. -/
theorem c6_sanitize_search_query :
    sanitizeSearchQuery "a@b.com meet c@d.org and e@f.net" = "" ∧
    sanitizeSearchQuery "call 555-123-4567 now" = "call [REDACTED] now" ∧
    sanitizeSearchQuery "hello world" = "hello world" := by
  exact ⟨by decide, by decide, by decide⟩

/-! ### Intent analyzer (browser/src/qwen/intent_analyzer.cc) -/

/-- Detected intent kinds. -/
inductive IntentType where
  | PURCHASE_INTENT
  | RESEARCH_INTENT
  | COMPARISON_INTENT
  | ENGAGEMENT_INTENT
  | NAVIGATION_INTENT
deriving DecidableEq

/-- Confidence buckets. -/
inductive ConfidenceLevel where
  | LOW
  | MEDIUM
  | HIGH
deriving DecidableEq

/-- One detected intent signal.  The C++ struct leaves `type`,
`confidence` and `confidence_score` uninitialized when the response
omits the fields; they are modelled as the zero-valued defaults
(first enumerators and `0`), which is what matters for the claims:
whether such records are kept, not which garbage value they carry. -/
structure IntentSignal where
  type : IntentType := IntentType.PURCHASE_INTENT
  confidence : ConfidenceLevel := ConfidenceLevel.LOW
  confidence_score : ℚ := 0
  category : String := ""
  detected_at : ℚ := 0
  time_window : ℚ := 0
  event_count : Int := 0
deriving DecidableEq

/-- The confidence bucketing of `ParseResponse`: below 0.4 is LOW,
below 0.7 is MEDIUM, otherwise HIGH. -/
def confidenceLevelOf (c : ℚ) : ConfidenceLevel :=
  if c < mkRat 2 5 then ConfidenceLevel.LOW
  else if c < mkRat 7 10 then ConfidenceLevel.MEDIUM
  else ConfidenceLevel.HIGH

/-- The `type` string mapping of `ParseResponse`; unrecognized strings
become NAVIGATION_INTENT. -/
def intentTypeOf (t : String) : IntentType :=
  if t = "PURCHASE_INTENT" then IntentType.PURCHASE_INTENT
  else if t = "RESEARCH_INTENT" then IntentType.RESEARCH_INTENT
  else if t = "COMPARISON_INTENT" then IntentType.COMPARISON_INTENT
  else if t = "ENGAGEMENT_INTENT" then IntentType.ENGAGEMENT_INTENT
  else IntentType.NAVIGATION_INTENT

/-- One record of the model response: defaults overwritten by whichever
of `type`, `confidence` and `category` are present, exactly as the
parsing loop does.  The record is pushed unconditionally. -/
def signalOfDict (now : ℚ) (d : List (String × JValue)) : IntentSignal :=
  let s0 : IntentSignal := { detected_at := now }
  let s1 := match findStr d "type" with
    | some t => { s0 with type := intentTypeOf t }
    | none => s0
  let s2 := match findNum d "confidence" with
    | some c => { s1 with confidence_score := c, confidence := confidenceLevelOf c }
    | none => s1
  match findStr d "category" with
  | some cat => { s2 with category := cat }
  | none => s2

/-- `IntentAnalyzer::ParseResponse`: a non-list response parses to no
signals; list items that are not dictionaries are skipped; every
dictionary item yields a signal. -/
def parseResponse (now : ℚ) (response : String) : List IntentSignal :=
  match jsonRead response with
  | some (JValue.jList items) =>
    items.filterMap (fun item =>
      match item with
      | JValue.jDict d => some (signalOfDict now d)
      | _ => none)
  | _ => []

/-- State of an `IntentAnalyzer`: model handle present, ready flag,
cached intents, minimum confidence (default 0.5) and analysis
interval (default five minutes, in milliseconds). -/
structure IntentAnalyzer where
  hasModelHandle : Bool := false
  is_ready : Bool := false
  cached_intents : List IntentSignal := []
  min_confidence : ℚ := mkRat 1 2
  analysis_interval_ms : ℚ := 300000
deriving DecidableEq

/-- `IntentAnalyzer::IsReady`. -/
def IsReady (st : IntentAnalyzer) : Bool := st.is_ready && st.hasModelHandle

/-- `IntentAnalyzer::SetMinConfidence` clamps the threshold to [0, 1]. -/
def SetMinConfidence (st : IntentAnalyzer) (threshold : ℚ) : IntentAnalyzer :=
  { st with min_confidence := max 0 (min threshold 1) }

/-- The per-event-kind label of `BuildPrompt`. -/
def eventTypeLabel : BrowsingEventType → String
  | BrowsingEventType.PAGE_LOAD => "PAGE_LOAD"
  | BrowsingEventType.PAGE_UNLOAD => "PAGE_UNLOAD"
  | BrowsingEventType.SCROLL => "SCROLL"
  | BrowsingEventType.CLICK => "CLICK"
  | BrowsingEventType.SEARCH_QUERY => "SEARCH"
  | BrowsingEventType.FORM_SUBMIT => "FORM"

/-- Decimal rendering of an integer as a string. -/
def intStr (i : Int) : String := String.mk (intChars i)

/-- One prompt line per event.  The `printf` number formatting (`%.0f`
rounding, `%lld`) is modelled schematically by truncation: the prompt
text only feeds the external model capability and no claim depends on
its exact characters. -/
def eventLine (e : BrowsingEvent) : String :=
  "- " ++ eventTypeLabel e.type ++ " | scroll:" ++ intStr (truncQ (e.scroll_depth * 100)) ++
    "% | duration:" ++ intStr (truncQ (e.duration / 1000)) ++ "s | element:" ++
    e.element_type ++ " | query:" ++ e.search_query ++ "\n"

/-- The fixed prompt header. -/
def promptHeader : String :=
  "Analyze the following anonymized browsing events and detect user intent signals.\n\nEvents (hashed URLs, timestamps, and behaviors):\n"

/-- The fixed prompt footer with the expected response schema. -/
def promptFooter : String :=
  "\n\nRespond with JSON array of detected intents:\n[\x7b\"type\": \"PURCHASE_INTENT|RESEARCH_INTENT|COMPARISON_INTENT|ENGAGEMENT_INTENT|NAVIGATION_INTENT\",\n  \"confidence\": 0.0-1.0,\n  \"category\": \"category_name\"\x7d]\n"

/-- `IntentAnalyzer::BuildPrompt`. -/
def buildPrompt (events : List BrowsingEvent) : String :=
  promptHeader ++ String.join (events.map eventLine) ++ promptFooter

/-- `IntentAnalyzer::RunInference`: with a null model handle the
response is the empty list text; otherwise the injected `ModelRuntime`
capability is invoked. -/
def runInference (infer : String → String) (st : IntentAnalyzer) (prompt : String) : String :=
  if st.hasModelHandle then infer prompt else "[]"

/-- `IntentAnalyzer::AnalyzeEvents`: no-op when not ready or on an empty
batch; otherwise build the prompt, run inference, parse, keep only
signals at or above the minimum confidence, cache and return them. -/
def analyzeEvents (infer : String → String) (now : ℚ) (st : IntentAnalyzer)
    (events : List BrowsingEvent) : IntentAnalyzer × List IntentSignal :=
  if !(IsReady st) then (st, [])
  else if events.isEmpty then (st, [])
  else
    let prompt := buildPrompt events
    let response := runInference infer st prompt
    let signals := parseResponse now response
    let filtered := signals.filter (fun s => st.min_confidence ≤ s.confidence_score)
    ({ st with cached_intents := filtered }, filtered)

/-- A model response holding one record with no `confidence` field. -/
def respMissing : String := writeDoc [JValue.jDict [("type", JValue.jStr "PURCHASE_INTENT")]]

/-- An analyzer in the state reached after a successful model load. -/
def analyzerReady : IntentAnalyzer := { hasModelHandle := true, is_ready := true }

/-- Claim C2 counterexample: a record whose `confidence` field is
missing is not dropped — `ParseResponse` keeps it, and with the
minimum-confidence threshold set to 0 it appears in both the returned
and the cached signal list of `AnalyzeEvents`. -/
theorem c2_missing_confidence_counterexample :
    (parseResponse 0 respMissing).length = 1 ∧
    ((analyzeEvents (fun _ => respMissing) 0 (SetMinConfidence analyzerReady 0) [evA]).2).length = 1 ∧
    ((analyzeEvents (fun _ => respMissing) 0 (SetMinConfidence analyzerReady 0) [evA]).1).cached_intents.length = 1 := by
  exact ⟨by decide, by decide, by decide⟩

/-- Claim C2 (amended): a record with a missing `confidence` field is
kept by `ParseResponse` with the struct's default score (modelled 0)
rather than dropped; it is absent from the list `AnalyzeEvents` returns
and caches only because the minimum-confidence filter (default 0.5)
removes it, not because parsing discarded it. -/
theorem c2_missing_confidence :
    (parseResponse 0 respMissing).length = 1 ∧
    (parseResponse 0 respMissing).map (fun s => s.confidence_score) = [0] ∧
    (analyzeEvents (fun _ => respMissing) 0 analyzerReady [evA]).2 = [] ∧
    (analyzeEvents (fun _ => respMissing) 0 analyzerReady [evA]).1.cached_intents = [] := by
  exact ⟨by decide, by decide, by decide, by decide⟩

/-- Claim C8: the derived confidence level is LOW exactly below 0.4,
MEDIUM exactly on [0.4, 0.7), and HIGH exactly at or above 0.7
(boundary-inclusive on the low side of each bucket); in particular 0.39
maps to LOW, 0.40 and 0.69 to MEDIUM, and 0.70 to HIGH. -/
theorem c8_confidence_buckets :
    (∀ c : ℚ, (confidenceLevelOf c = ConfidenceLevel.LOW ↔ c < mkRat 2 5) ∧
      (confidenceLevelOf c = ConfidenceLevel.MEDIUM ↔ mkRat 2 5 ≤ c ∧ c < mkRat 7 10) ∧
      (confidenceLevelOf c = ConfidenceLevel.HIGH ↔ mkRat 7 10 ≤ c)) ∧
    confidenceLevelOf (mkRat 39 100) = ConfidenceLevel.LOW ∧
    confidenceLevelOf (mkRat 2 5) = ConfidenceLevel.MEDIUM ∧
    confidenceLevelOf (mkRat 69 100) = ConfidenceLevel.MEDIUM ∧
    confidenceLevelOf (mkRat 7 10) = ConfidenceLevel.HIGH := by
  refine ⟨?_, by decide, by decide, by decide, by decide⟩
  intro c
  have hmid : mkRat 2 5 ≤ mkRat 7 10 := by decide
  rcases lt_or_ge c (mkRat 2 5) with h1 | h1
  · rw [confidenceLevelOf, if_pos h1]
    refine ⟨by simp [h1], ?_, ?_⟩
    · constructor
      · intro h; exact absurd h (by decide)
      · rintro ⟨h2, _⟩; exact absurd h1 (not_lt.2 h2)
    · constructor
      · intro h; exact absurd h (by decide)
      · intro h2; exact absurd h1 (not_lt.2 (le_trans hmid h2))
  · rcases lt_or_ge c (mkRat 7 10) with h2 | h2
    · rw [confidenceLevelOf, if_neg (not_lt.2 h1), if_pos h2]
      refine ⟨?_, by simp [h1, h2], ?_⟩
      · constructor
        · intro h; exact absurd h (by decide)
        · intro h; exact absurd h (not_lt.2 h1)
      · constructor
        · intro h; exact absurd h (by decide)
        · intro h; exact absurd h2 (not_lt.2 h)
    · rw [confidenceLevelOf, if_neg (not_lt.2 h1), if_neg (not_lt.2 h2)]
      refine ⟨?_, ?_, by simp [h2]⟩
      · constructor
        · intro h; exact absurd h (by decide)
        · intro h; exact absurd h (not_lt.2 (le_trans hmid h2))
      · constructor
        · intro h; exact absurd h (by decide)
        · rintro ⟨_, h3⟩; exact absurd h3 (not_lt.2 h2)

/-! ### Collection coordinator (browser/src/collector/browsing_data_collector.cc)

The SHA-1 digest (`base::SHA1HashString` plus hex encoding inside
`HashUrl`) is an external capability and is passed as an explicit
function parameter `hashUrl`; `base::Time::Now` is passed as `now`
(milliseconds).  `IsIncognito(contents)` observes the hosting context
(null contents report false); the observation is passed as the boolean
`incognito` where the code consults it. -/

/-- State of the `BrowsingDataCollector`: the owned privacy filter, the
owned store's event cache, the running peak scroll depth, and the
global enable flag (default on). -/
structure BrowsingDataCollector where
  filter : PrivacyFilter := {}
  events : List BrowsingEvent := []
  current_scroll_depth : ℚ := 0
  collection_enabled : Bool := true
deriving DecidableEq

/-- `OnPageLoad`: drop in incognito, drop when disabled, drop excluded
sites; otherwise store a PAGE_LOAD event with the hashed URL and reset
the scroll depth. -/
def OnPageLoad (hashUrl : String → String) (now : ℚ) (url : GUrl) (incognito : Bool)
    (st : BrowsingDataCollector) : BrowsingDataCollector :=
  if incognito then st
  else if !st.collection_enabled then st
  else if isExcluded st.filter url then st
  else
    { st with
      events := StoreEvent st.events
        { type := BrowsingEventType.PAGE_LOAD, url_hash := hashUrl url.spec, timestamp := now },
      current_scroll_depth := 0 }

/-- `OnPageUnload`: checks only the enable flag, then stores a
PAGE_UNLOAD event with the elapsed time and the session's peak scroll
depth (the incognito state and the privacy filter are not consulted). -/
def OnPageUnload (hashUrl : String → String) (now : ℚ) (url : GUrl) (time_on_page : ℚ)
    (st : BrowsingDataCollector) : BrowsingDataCollector :=
  if !st.collection_enabled then st
  else
    { st with
      events := StoreEvent st.events
        { type := BrowsingEventType.PAGE_UNLOAD, url_hash := hashUrl url.spec,
          timestamp := now, duration := time_on_page,
          scroll_depth := st.current_scroll_depth } }

/-- `OnScroll`: updates the running peak scroll depth only when the new
value is strictly greater; stores nothing. -/
def OnScroll (depth_percentage : ℚ) (st : BrowsingDataCollector) : BrowsingDataCollector :=
  if !st.collection_enabled then st
  else if st.current_scroll_depth < depth_percentage then
    { st with current_scroll_depth := depth_percentage }
  else st

/-- `OnClick`: checks only the enable flag, then stores a CLICK event
with the sanitized element tag. -/
def OnClick (now : ℚ) (element_selector : String) (st : BrowsingDataCollector) :
    BrowsingDataCollector :=
  if !st.collection_enabled then st
  else
    { st with
      events := StoreEvent st.events
        { type := BrowsingEventType.CLICK, timestamp := now,
          element_type := sanitizeElementSelector element_selector } }

/-- `OnSearchQuery`: checks only the enable flag; drops the event when
sanitization leaves an empty string, otherwise stores a SEARCH_QUERY
event with the sanitized text. -/
def OnSearchQuery (now : ℚ) (query : String) (st : BrowsingDataCollector) :
    BrowsingDataCollector :=
  if !st.collection_enabled then st
  else
    let sanitized := sanitizeSearchQuery query
    if sanitized = "" then st
    else
      { st with
        events := StoreEvent st.events
          { type := BrowsingEventType.SEARCH_QUERY, timestamp := now,
            search_query := sanitized } }

/-- `OnFormSubmit`: checks only the enable flag; drops the whole
submission when any field type is a password or credit-card label,
otherwise stores a bare FORM_SUBMIT event. -/
def OnFormSubmit (now : ℚ) (field_types : List String) (st : BrowsingDataCollector) :
    BrowsingDataCollector :=
  if !st.collection_enabled then st
  else if field_types.any (fun t => t = "password" || t = "credit-card") then st
  else
    { st with
      events := StoreEvent st.events
        { type := BrowsingEventType.FORM_SUBMIT, timestamp := now } }

/-- A banking URL (host contains the keyword `bank`). -/
def bankUrl : GUrl := { valid := true, host := "mybank.com", spec := "https://mybank.com/" }

/-- A fresh collector with all defaults: collection enabled, banking and
healthcare categories excluded. -/
def collectorInit : BrowsingDataCollector := {}

/-- Claim C1 (code-bug exhibit): on a fresh collector the privacy
filter excludes `mybank.com`, and `OnPageLoad` accordingly drops the
event — yet `OnPageUnload` stores a PAGE_UNLOAD event for the very same
URL, because `OnPageUnload`, `OnClick`, `OnSearchQuery` and
`OnFormSubmit` check only the global enable flag and never consult the
incognito state or the privacy filter, contrary to the per-hook gate
order the specification states and to the collector's own header
comment ("Incognito mode sessions are never tracked", "User-excluded
sites are skipped", "Sensitive categories ... excluded by default"). -/
theorem c1_hooks_skip_privacy_gates :
    isExcluded collectorInit.filter bankUrl = true ∧
    (OnPageUnload (fun s => s) 0 bankUrl 5000 collectorInit).events.length = 1 ∧
    (OnPageLoad (fun s => s) 0 bankUrl false collectorInit).events.length = 0 := by
  exact ⟨by decide, by decide, by decide⟩
